import Mathlib

/-!
Verification of the Mandelbrot renderer core (`src/mandelbrot.c`).

Shallow embedding conventions:
* C `double` arithmetic is modelled by exact rational arithmetic (`ℚ`).
  All claims below are about the algorithmic structure of the code
  (comparisons, loop control, integer results), which the exact model
  captures; rounding of individual IEEE operations is not modelled.
* C `int` values that are in fact natural (pixel coordinates, iteration
  counts, row indices) are modelled by `ℕ`.
* The C cast `(uint8_t)x` of a nonnegative in-range `double` truncates
  toward zero, i.e. takes the floor.
* Global compile-time constants keep their C names.
-/

/-- Horizontal resolution, `#define WIDTH 800`. -/
def WIDTH : ℕ := 800

/-- Vertical resolution, `#define HEIGHT 800`. -/
def HEIGHT : ℕ := 800

/-- Iteration cap, `#define MAX_ITER 1000`. -/
def MAX_ITER : ℕ := 1000

/-- Worker count, `#define NUM_THREADS 16`. -/
def NUM_THREADS : ℕ := 16

/-- Viewport state of the `Mandelbrot` struct (the pixel buffer is modelled
functionally elsewhere): center point and zoom level. -/
structure Mandelbrot where
  centerX : ℚ
  centerY : ℚ
  zoom : ℚ

/-- Initial state, `Mandelbrot mandelbrot = {-0.5, 0.0, 1.0, NULL}` (line 144). -/
def mandelbrot0 : Mandelbrot := ⟨-0.5, 0.0, 1.0⟩

/-! ## Tile scheduler partitioning (`drawMandelbrot`, lines 100-109)

`int sliceHeight = HEIGHT / NUM_THREADS;`
`threadData[i].startY = i * sliceHeight;`
`threadData[i].endY = (i == NUM_THREADS - 1) ? HEIGHT : (i + 1) * sliceHeight;`

The partitioning rule is stated for arbitrary `Height` and thread count `N`
to match the spec's partition-completeness property. -/

/-- Height of the slice for each thread: `Height / N` with integer division. -/
def sliceHeight (Height N : ℕ) : ℕ := Height / N

/-- Start row of band `i`: `i * sliceHeight`. -/
def bandStart (Height N i : ℕ) : ℕ := i * sliceHeight Height N

/-- End row (exclusive) of band `i`: the last band extends to `Height`,
all others end at `(i + 1) * sliceHeight`. -/
def bandEnd (Height N i : ℕ) : ℕ :=
  if i = N - 1 then Height else (i + 1) * sliceHeight Height N

/-- Membership of row `y` in band `i`: the half-open interval
`[bandStart, bandEnd)`. -/
def inBand (Height N i y : ℕ) : Prop :=
  bandStart Height N i ≤ y ∧ y < bandEnd Height N i

lemma bandEnd_le (Height N i : ℕ) (hi : i < N) :
    bandEnd Height N i ≤ Height := by
  unfold bandEnd
  split
  · exact le_rfl
  · calc (i + 1) * sliceHeight Height N
        ≤ N * sliceHeight Height N := by
          exact Nat.mul_le_mul_right _ (by omega)
      _ ≤ Height := by
          unfold sliceHeight
          rw [Nat.mul_comm]
          exact Nat.div_mul_le_self Height N

lemma inBand_lt_height {Height N i y : ℕ} (hi : i < N)
    (h : inBand Height N i y) : y < Height :=
  lt_of_lt_of_le h.2 (bandEnd_le Height N i hi)

lemma exists_band {Height N y : ℕ} (hN : 0 < N) (hy : y < Height) :
    ∃ i, i < N ∧ inBand Height N i y := by
  by_cases hslice : sliceHeight Height N = 0
  · -- all non-last bands are empty; the last band is [0, Height)
    refine ⟨N - 1, by omega, ?_, ?_⟩
    · unfold bandStart; rw [hslice]; simp
    · unfold bandEnd; rw [if_pos rfl]; exact hy
  · have hs : 0 < sliceHeight Height N := Nat.pos_of_ne_zero hslice
    by_cases hq : y / sliceHeight Height N < N - 1
    · refine ⟨y / sliceHeight Height N, by omega, ?_, ?_⟩
      · exact Nat.div_mul_le_self y _
      · unfold bandEnd
        rw [if_neg (by omega), Nat.succ_mul]
        have h1 := Nat.div_add_mod' y (sliceHeight Height N)
        have h2 := Nat.mod_lt y hs
        omega
    · refine ⟨N - 1, by omega, ?_, ?_⟩
      · unfold bandStart
        calc (N - 1) * sliceHeight Height N
            ≤ (y / sliceHeight Height N) * sliceHeight Height N :=
              Nat.mul_le_mul_right _ (by omega)
          _ ≤ y := Nat.div_mul_le_self y _
      · unfold bandEnd; rw [if_pos rfl]; exact hy

lemma band_disjoint_lt {Height N i j y : ℕ} (hj : j < N) (hij : i < j)
    (hi : inBand Height N i y) (hjy : inBand Height N j y) : False := by
  have hiNe : i ≠ N - 1 := by omega
  have h1 : y < (i + 1) * sliceHeight Height N := by
    have := hi.2; unfold bandEnd at this; rwa [if_neg hiNe] at this
  have h2 : (i + 1) * sliceHeight Height N ≤ j * sliceHeight Height N :=
    Nat.mul_le_mul_right _ (by omega)
  have h3 : j * sliceHeight Height N ≤ y := hjy.1
  omega

/-- Claim C3 helper: bands are pairwise disjoint. -/
lemma band_disjoint {Height N i j y : ℕ} (hi : i < N) (hj : j < N)
    (hiy : inBand Height N i y) (hjy : inBand Height N j y) : i = j := by
  rcases lt_trichotomy i j with h | h | h
  · exact absurd (band_disjoint_lt hj h hiy hjy) (by simp)
  · exact h
  · exact absurd (band_disjoint_lt hi h hjy hiy) (by simp)

/-- Claim C3: for all `Height > 0` and `N > 0`, the row bands produced by the
scheduler's partitioning rule are pairwise disjoint and their union is exactly
`[0, Height)`: every row below `Height` lies in exactly one band, and every
band row is below `Height`. -/
theorem bands_partition (Height N : ℕ) (hH : 0 < Height) (hN : 0 < N) :
    (∀ y, y < Height ↔ ∃ i, i < N ∧ inBand Height N i y) ∧
    (∀ i j y, i < N → j < N → inBand Height N i y → inBand Height N j y →
      i = j) := by
  constructor
  · intro y
    constructor
    · intro hy
      exact exists_band hN hy
    · rintro ⟨i, hi, hmem⟩
      exact inBand_lt_height hi hmem
  · intro i j y hi hj hiy hjy
    exact band_disjoint hi hj hiy hjy

/-- Claim C3 witness: the partition theorem instantiated at the program's
actual dimensions, `Height = 800` and `N = 16`. -/
theorem bands_partition_witness :
    0 < 800 ∧ 0 < 16 ∧
    ((∀ y, y < 800 ↔ ∃ i, i < 16 ∧ inBand 800 16 i y) ∧
     (∀ i j y, i < 16 → j < 16 → inBand 800 16 i y → inBand 800 16 j y →
       i = j)) :=
  ⟨by decide, by decide, bands_partition 800 16 (by decide) (by decide)⟩

/-! ## Viewport transform (`renderPart`, lines 56-63)

`double imag = (y - HEIGHT / 2.0) / (0.5 * m->zoom * HEIGHT) + m->centerY;`
`double real = (x - WIDTH / 2.0) / (0.5 * m->zoom * WIDTH) + m->centerX;` -/

/-- Real part of the complex constant fed to the kernel for pixel column `x`. -/
def pixelReal (m : Mandelbrot) (x : ℕ) : ℚ :=
  ((x : ℚ) - (WIDTH : ℚ) / 2) / (0.5 * m.zoom * (WIDTH : ℚ)) + m.centerX

/-- Imaginary part of the complex constant fed to the kernel for pixel row `y`. -/
def pixelImag (m : Mandelbrot) (y : ℕ) : ℚ :=
  ((y : ℚ) - (HEIGHT : ℚ) / 2) / (0.5 * m.zoom * (HEIGHT : ℚ)) + m.centerY

/-- Modelled from the spec (section 4.1): the viewport-to-plane formula as
written in the spec, `real = (x - Width/2) / (0.5 * zoom * Width) + centerReal`.
Used to compare the code's transform against the spec's words. -/
def specPixelReal (m : Mandelbrot) (x : ℕ) : ℚ :=
  ((x : ℚ) - (WIDTH : ℚ) / 2) / (0.5 * m.zoom * (WIDTH : ℚ)) + m.centerX

/-- Modelled from the spec (section 4.1): the imaginary-part formula
`imag = (y - Height/2) / (0.5 * zoom * Height) + centerImag`. -/
def specPixelImag (m : Mandelbrot) (y : ℕ) : ℚ :=
  ((y : ℚ) - (HEIGHT : ℚ) / 2) / (0.5 * m.zoom * (HEIGHT : ℚ)) + m.centerY

/-! ## Viewport mutations (`main`, lines 164-188) -/

/-- Mouse-wheel zoom, line 165:
`mandelbrot.zoom *= (event.wheel.y > 0) ? 1.1 : 1 / 1.1;`. -/
def applyWheel (m : Mandelbrot) (wheelY : ℚ) : Mandelbrot :=
  { m with zoom := m.zoom * (if 0 < wheelY then 1.1 else 1 / 1.1) }

/-- Mouse-drag pan, lines 183-184:
`mandelbrot.centerX -= (event.motion.x - prevMouseX) / (mandelbrot.zoom * WIDTH);`
`mandelbrot.centerY -= (event.motion.y - prevMouseY) / (mandelbrot.zoom * HEIGHT);`
with `dx`, `dy` the accumulated pixel deltas. -/
def applyDrag (m : Mandelbrot) (dx dy : ℚ) : Mandelbrot :=
  { m with
    centerX := m.centerX - dx / (m.zoom * (WIDTH : ℚ)),
    centerY := m.centerY - dy / (m.zoom * (HEIGHT : ℚ)) }

/-- Claim C7: for every pixel of the image and every viewport with positive
zoom, the constant fed to the kernel is exactly the spec's formula, and the
center pixel `(Width/2, Height/2)` maps to `(centerReal, centerImag)`. -/
theorem pixel_transform (m : Mandelbrot) (x y : ℕ)
    (hx : x < WIDTH) (hy : y < HEIGHT) (hz : 0 < m.zoom) :
    pixelReal m x = specPixelReal m x ∧
    pixelImag m y = specPixelImag m y ∧
    pixelReal m (WIDTH / 2) = m.centerX ∧
    pixelImag m (HEIGHT / 2) = m.centerY := by
  refine ⟨rfl, rfl, ?_, ?_⟩
  · unfold pixelReal WIDTH
    norm_num
  · unfold pixelImag HEIGHT
    norm_num

/-- Claim C7 witness: the transform theorem at the initial viewport and
pixel `(0, 0)`. -/
theorem pixel_transform_witness :
    0 < WIDTH ∧ 0 < HEIGHT ∧ 0 < mandelbrot0.zoom ∧
    (pixelReal mandelbrot0 0 = specPixelReal mandelbrot0 0 ∧
     pixelImag mandelbrot0 0 = specPixelImag mandelbrot0 0 ∧
     pixelReal mandelbrot0 (WIDTH / 2) = mandelbrot0.centerX ∧
     pixelImag mandelbrot0 (HEIGHT / 2) = mandelbrot0.centerY) :=
  ⟨by decide, by decide, by norm_num [mandelbrot0],
   pixel_transform mandelbrot0 0 0 (by decide) (by decide)
     (by norm_num [mandelbrot0])⟩

/-- Claim C8: zooming in (positive wheel direction) and then zooming out
(negative direction) restores the original zoom value exactly in the rational
model — `1.1` and `1 / 1.1` are exact inverses there, so the round trip is
the identity on the zoom (and the center is untouched by the wheel). -/
theorem zoom_roundtrip (m : Mandelbrot) (hz : 0 < m.zoom) :
    applyWheel (applyWheel m 1) (-1) = m := by
  obtain ⟨cx, cy, z⟩ := m
  simp only [applyWheel, Mandelbrot.mk.injEq]
  norm_num
  ring

/-- Claim C8 witness: the zoom round trip at the initial viewport. -/
theorem zoom_roundtrip_witness :
    0 < mandelbrot0.zoom ∧ applyWheel (applyWheel mandelbrot0 1) (-1) = mandelbrot0 :=
  ⟨by norm_num [mandelbrot0], zoom_roundtrip mandelbrot0 (by norm_num [mandelbrot0])⟩

/-- Claim C9: panning is additive in the pixel deltas — two consecutive drags
produce the same center as a single drag by the summed deltas (exactly, in the
rational model; the drag leaves the zoom unchanged, so both divisors agree). -/
theorem pan_linear (m : Mandelbrot) (dx1 dy1 dx2 dy2 : ℚ) (hz : 0 < m.zoom) :
    (applyDrag (applyDrag m dx1 dy1) dx2 dy2).centerX =
      (applyDrag m (dx1 + dx2) (dy1 + dy2)).centerX ∧
    (applyDrag (applyDrag m dx1 dy1) dx2 dy2).centerY =
      (applyDrag m (dx1 + dx2) (dy1 + dy2)).centerY := by
  unfold applyDrag
  constructor
  · simp only
    rw [add_div]
    ring
  · simp only
    rw [add_div]
    ring

/-- Claim C9 witness: pan additivity at the initial viewport with concrete
deltas `(3, 4)` then `(5, -2)`. -/
theorem pan_linear_witness :
    0 < mandelbrot0.zoom ∧
    ((applyDrag (applyDrag mandelbrot0 3 4) 5 (-2)).centerX =
       (applyDrag mandelbrot0 (3 + 5) (4 + -2)).centerX ∧
     (applyDrag (applyDrag mandelbrot0 3 4) 5 (-2)).centerY =
       (applyDrag mandelbrot0 (3 + 5) (4 + -2)).centerY) :=
  ⟨by norm_num [mandelbrot0],
   pan_linear mandelbrot0 3 4 5 (-2) (by norm_num [mandelbrot0])⟩

/-! ## Color palette (`generateColorPalette`, lines 38-46)

For `i` in `[0, MAX_ITER]` with `t = (double)i / MAX_ITER`:
`uint8_t r = (uint8_t)(9 * (1 - t) * t * t * t * 255);`
`uint8_t g = (uint8_t)(15 * (1 - t) * (1 - t) * t * t * 255);`
`uint8_t b = (uint8_t)(8.5 * (1 - t) * (1 - t) * (1 - t) * t * 255);`
`colorPalette[i] = (0xFF << 24) | (r << 16) | (g << 8) | b;` -/

/-- The loop variable `double t = (double)i / MAX_ITER;`. -/
def tValue (i : ℕ) : ℚ := (i : ℚ) / (MAX_ITER : ℚ)

/-- Red channel value before the narrowing cast. -/
def channelR (i : ℕ) : ℚ :=
  9 * (1 - tValue i) * tValue i * tValue i * tValue i * 255

/-- Green channel value before the narrowing cast. -/
def channelG (i : ℕ) : ℚ :=
  15 * (1 - tValue i) * (1 - tValue i) * tValue i * tValue i * 255

/-- Blue channel value before the narrowing cast. -/
def channelB (i : ℕ) : ℚ :=
  8.5 * (1 - tValue i) * (1 - tValue i) * (1 - tValue i) * tValue i * 255

/-- The C cast `(uint8_t)x` for the (nonnegative, in-range) channel values:
truncation toward zero, i.e. the floor. -/
def toU8 (q : ℚ) : ℕ := (⌊q⌋).toNat

/-- Palette entry `i`, the packed ARGB value
`(0xFF << 24) | (r << 16) | (g << 8) | b`. -/
def paletteColor (i : ℕ) : ℕ :=
  (0xFF <<< 24) ||| (toU8 (channelR i) <<< 16) |||
    (toU8 (channelG i) <<< 8) ||| toU8 (channelB i)

/-- The palette table `Uint32 colorPalette[MAX_ITER + 1]` after
`generateColorPalette` has run. -/
def colorPalette : List ℕ := (List.range (MAX_ITER + 1)).map paletteColor

/-- Modelled from the spec (section 4.3): the palette entry the spec
prescribes, with each channel computed by `round` (mathematical rounding,
half up) instead of the code's truncating cast. -/
def specPaletteColor (i : ℕ) : ℕ :=
  (0xFF <<< 24) ||| ((round (channelR i)).toNat <<< 16) |||
    ((round (channelG i)).toNat <<< 8) ||| (round (channelB i)).toNat

lemma t_nonneg (i : ℕ) : 0 ≤ tValue i := by unfold tValue; positivity

lemma t_le_one (i : ℕ) (hi : i ≤ MAX_ITER) : tValue i ≤ 1 := by
  unfold tValue
  rw [div_le_one (by norm_num [MAX_ITER])]
  exact_mod_cast hi

lemma channelR_nonneg (i : ℕ) (hi : i ≤ MAX_ITER) : 0 ≤ channelR i := by
  unfold channelR
  have h0 := t_nonneg i
  have h1 := t_le_one i hi
  set t := tValue i
  have h2 : 0 ≤ 1 - t := by linarith
  positivity

lemma channelR_le (i : ℕ) (hi : i ≤ MAX_ITER) : channelR i ≤ 255 := by
  unfold channelR
  have h0 := t_nonneg i
  have h1 := t_le_one i hi
  set t := tValue i
  nlinarith [sq_nonneg (t - 3/4), sq_nonneg ((t - 3/4) * (t + 1/4))]

lemma channelG_nonneg (i : ℕ) (hi : i ≤ MAX_ITER) : 0 ≤ channelG i := by
  unfold channelG
  have h0 := t_nonneg i
  have h1 := t_le_one i hi
  set t := tValue i
  have h2 : 0 ≤ 1 - t := by linarith
  positivity

lemma channelG_le (i : ℕ) (hi : i ≤ MAX_ITER) : channelG i ≤ 255 := by
  unfold channelG
  have h0 := t_nonneg i
  have h1 := t_le_one i hi
  set t := tValue i
  nlinarith [sq_nonneg (t - 1/2), mul_nonneg h0 (by linarith : (0:ℚ) ≤ 1 - t)]

lemma channelB_nonneg (i : ℕ) (hi : i ≤ MAX_ITER) : 0 ≤ channelB i := by
  unfold channelB
  have h0 := t_nonneg i
  have h1 := t_le_one i hi
  set t := tValue i
  have h2 : 0 ≤ 1 - t := by linarith
  have h3 : 0 ≤ (8.5 : ℚ) := by norm_num
  positivity

lemma channelB_le (i : ℕ) (hi : i ≤ MAX_ITER) : channelB i ≤ 255 := by
  unfold channelB
  have h0 := t_nonneg i
  have h1 := t_le_one i hi
  set t := tValue i
  nlinarith [sq_nonneg ((1/4 - t) * (5/4 - t)), sq_nonneg (1/4 - t)]

lemma toU8_lt_256 {q : ℚ} (hq : q ≤ 255) : toU8 q < 256 := by
  unfold toU8
  have h : ⌊q⌋ ≤ 255 := by
    have h2 : ⌊q⌋ ≤ ⌊(255 : ℚ)⌋ := Int.floor_le_floor hq
    have h3 : ⌊(255 : ℚ)⌋ = 255 := by
      rw [show (255 : ℚ) = ((255 : ℤ) : ℚ) by norm_num, Int.floor_intCast]
    omega
  omega

/-- Helper: packing four in-range bytes with shifts and bitwise or is plain
base-256 positional arithmetic. -/
lemma pack_channels (a r g b : ℕ) (hr : r < 256) (hg : g < 256) (hb : b < 256) :
    (a <<< 24) ||| (r <<< 16) ||| (g <<< 8) ||| b
      = a * 2 ^ 24 + r * 2 ^ 16 + g * 2 ^ 8 + b := by
  have e1 : a <<< 24 = 2 ^ 24 * a := by rw [Nat.shiftLeft_eq]; ring
  have e2 : r <<< 16 = 2 ^ 16 * r := by rw [Nat.shiftLeft_eq]; ring
  have e3 : g <<< 8 = 2 ^ 8 * g := by rw [Nat.shiftLeft_eq]; ring
  have s1 : (2:ℕ) ^ 16 * r < 2 ^ 24 := by
    calc (2:ℕ) ^ 16 * r < 2 ^ 16 * 256 := by omega
      _ = 2 ^ 24 := by norm_num
  have h1 : (2:ℕ) ^ 24 * a ||| 2 ^ 16 * r = 2 ^ 24 * a + 2 ^ 16 * r :=
    (Nat.mul_add_lt_is_or s1 a).symm
  have h2 : (2:ℕ) ^ 24 * a + 2 ^ 16 * r = 2 ^ 16 * (2 ^ 8 * a + r) := by ring
  have s2 : (2:ℕ) ^ 8 * g < 2 ^ 16 := by
    calc (2:ℕ) ^ 8 * g < 2 ^ 8 * 256 := by omega
      _ = 2 ^ 16 := by norm_num
  have h3 : (2:ℕ) ^ 16 * (2 ^ 8 * a + r) ||| 2 ^ 8 * g
      = 2 ^ 16 * (2 ^ 8 * a + r) + 2 ^ 8 * g :=
    (Nat.mul_add_lt_is_or s2 _).symm
  have h4 : (2:ℕ) ^ 16 * (2 ^ 8 * a + r) + 2 ^ 8 * g
      = 2 ^ 8 * (2 ^ 8 * (2 ^ 8 * a + r) + g) := by ring
  have s3 : b < 2 ^ 8 := by omega
  have h5 : (2:ℕ) ^ 8 * (2 ^ 8 * (2 ^ 8 * a + r) + g) ||| b
      = 2 ^ 8 * (2 ^ 8 * (2 ^ 8 * a + r) + g) + b :=
    (Nat.mul_add_lt_is_or s3 _).symm
  rw [e1, e2, e3, h1, h2, h3, h4, h5]
  ring

/-- Claim C10: for every palette index the channel polynomials stay inside
`[0, 255]`, so the narrowing cast to an 8-bit channel never wraps: each
truncated channel fits in a byte. -/
theorem palette_channels_in_range (i : ℕ) (hi : i ≤ MAX_ITER) :
    (0 ≤ channelR i ∧ channelR i ≤ 255) ∧
    (0 ≤ channelG i ∧ channelG i ≤ 255) ∧
    (0 ≤ channelB i ∧ channelB i ≤ 255) ∧
    toU8 (channelR i) < 256 ∧ toU8 (channelG i) < 256 ∧
    toU8 (channelB i) < 256 :=
  ⟨⟨channelR_nonneg i hi, channelR_le i hi⟩,
   ⟨channelG_nonneg i hi, channelG_le i hi⟩,
   ⟨channelB_nonneg i hi, channelB_le i hi⟩,
   toU8_lt_256 (channelR_le i hi), toU8_lt_256 (channelG_le i hi),
   toU8_lt_256 (channelB_le i hi)⟩

/-- Claim C10 witness: the channel-range theorem at index 650. -/
theorem palette_channels_in_range_witness :
    650 ≤ MAX_ITER ∧
    ((0 ≤ channelR 650 ∧ channelR 650 ≤ 255) ∧
     (0 ≤ channelG 650 ∧ channelG 650 ≤ 255) ∧
     (0 ≤ channelB 650 ∧ channelB 650 ≤ 255) ∧
     toU8 (channelR 650) < 256 ∧ toU8 (channelG 650) < 256 ∧
     toU8 (channelB 650) < 256) :=
  ⟨by decide, palette_channels_in_range 650 (by decide)⟩

lemma toU8_channelR_650 : toU8 (channelR 650) = 220 := by
  unfold toU8
  have h : ⌊channelR 650⌋ = (220 : ℤ) := by
    rw [Int.floor_eq_iff]
    norm_num [channelR, tValue, MAX_ITER]
  rw [h]
  rfl

lemma round_channelR_650 : (round (channelR 650)).toNat = 221 := by
  have h : round (channelR 650) = (221 : ℤ) := by
    rw [round_eq, Int.floor_eq_iff]
    norm_num [channelR, tValue, MAX_ITER]
  rw [h]
  rfl

lemma toU8_channelG_650 : toU8 (channelG 650) = 197 := by
  unfold toU8
  have h : ⌊channelG 650⌋ = (197 : ℤ) := by
    rw [Int.floor_eq_iff]
    norm_num [channelG, tValue, MAX_ITER]
  rw [h]
  rfl

lemma round_channelG_650 : (round (channelG 650)).toNat = 198 := by
  have h : round (channelG 650) = (198 : ℤ) := by
    rw [round_eq, Int.floor_eq_iff]
    norm_num [channelG, tValue, MAX_ITER]
  rw [h]
  rfl

lemma toU8_channelB_650 : toU8 (channelB 650) = 60 := by
  unfold toU8
  have h : ⌊channelB 650⌋ = (60 : ℤ) := by
    rw [Int.floor_eq_iff]
    norm_num [channelB, tValue, MAX_ITER]
  rw [h]
  rfl

lemma round_channelB_650 : (round (channelB 650)).toNat = 60 := by
  have h : round (channelB 650) = (60 : ℤ) := by
    rw [round_eq, Int.floor_eq_iff]
    norm_num [channelB, tValue, MAX_ITER]
  rw [h]
  rfl

/-- Claim C5 counterexample: at index 650 the code's palette entry differs
from the spec's rounded entry — the red channel value is 220.5925, which the
code's truncating cast turns into 220 while the spec's `round` gives 221
(the green channel differs likewise, 197 versus 198). -/
theorem palette_round_counterexample : paletteColor 650 ≠ specPaletteColor 650 := by
  unfold paletteColor specPaletteColor
  rw [toU8_channelR_650, round_channelR_650, toU8_channelG_650,
    round_channelG_650, toU8_channelB_650, round_channelB_650]
  decide

/-- Claim C5 (amended): palette entry `i` is the packed 32-bit color with
alpha `0xFF` and channels obtained by TRUNCATING (not rounding) the channel
polynomials, combined as `alpha * 2^24 + r * 2^16 + g * 2^8 + b` — the
bitwise packing of the code coincides with that arithmetic combination
because every channel fits in 8 bits. -/
theorem palette_entry_packed (i : ℕ) (hi : i ≤ MAX_ITER) :
    paletteColor i =
      0xFF * 2 ^ 24 + toU8 (channelR i) * 2 ^ 16 +
        toU8 (channelG i) * 2 ^ 8 + toU8 (channelB i) := by
  unfold paletteColor
  exact pack_channels _ _ _ _ (toU8_lt_256 (channelR_le i hi))
    (toU8_lt_256 (channelG_le i hi)) (toU8_lt_256 (channelB_le i hi))

/-- Claim C5 witness: the amended packing theorem at index 650, where the
truncated channels are 220, 197 and 60. -/
theorem palette_entry_packed_witness :
    650 ≤ MAX_ITER ∧
    paletteColor 650 =
      0xFF * 2 ^ 24 + toU8 (channelR 650) * 2 ^ 16 +
        toU8 (channelG 650) * 2 ^ 8 + toU8 (channelB 650) :=
  ⟨by decide, palette_entry_packed 650 (by decide)⟩

/-! ## Escape-time kernel (`renderPart`, lines 64-88)

The per-pixel loop, with the original two-fold unrolling:
```
while (iter < MAX_ITER) {
    zr2 = zr * zr;  zi2 = zi * zi;
    if (zr2 + zi2 >= 4.0) break;
    for (int i = 0; i < 2 && iter < MAX_ITER; i++) {
        zi = zr * zi;  zi += zi + imag;
        zr = zr2 - zi2 + real;
        iter++;
        zr2 = zr * zr;  zi2 = zi * zi;
        if (zr2 + zi2 >= 4.0) break;
    }
}
```
`mandelLoop` is a fuel-indexed translation: one recursive call per trip of
the outer `while`.  A bailout `break` out of the inner `for` is followed in C
by the outer loop re-testing the same (recomputed) squares and breaking; that
re-test is the head of the next recursive call here, so control flow matches.
The inner `for` executes its first pass unconditionally when reached (the
outer guard just established `iter < MAX_ITER`), and its second pass only
when the first did not bail out and `iter + 1 < MAX_ITER` still holds. -/

def mandelLoop (real imag : ℚ) (maxIter : ℕ) : ℕ → ℚ → ℚ → ℕ → ℕ
  | 0, _, _, iter => iter
  | fuel + 1, zr, zi, iter =>
    if iter < maxIter then
      let zr2 := zr * zr
      let zi2 := zi * zi
      if 4 ≤ zr2 + zi2 then iter
      else
        let zi' := zr * zi + (zr * zi + imag)
        let zr' := zr2 - zi2 + real
        let zr2' := zr' * zr'
        let zi2' := zi' * zi'
        if 4 ≤ zr2' + zi2' then
          mandelLoop real imag maxIter fuel zr' zi' (iter + 1)
        else if iter + 1 < maxIter then
          let zi'' := zr' * zi' + (zr' * zi' + imag)
          let zr'' := zr2' - zi2' + real
          mandelLoop real imag maxIter fuel zr'' zi'' (iter + 1 + 1)
        else
          mandelLoop real imag maxIter fuel zr' zi' (iter + 1)
    else iter

/-- Iteration count of the kernel for the complex constant
`c = real + i*imag`: the unrolled loop started from `z = 0`, `iter = 0`.
The fuel `MAX_ITER + 1` dominates the number of outer-loop trips, since
every trip that recurses increases `iter` by at least one. -/
def renderPart (real imag : ℚ) : ℕ :=
  mandelLoop real imag MAX_ITER (MAX_ITER + 1) 0 0 0

/-- Modelled from the spec (section 4.2): the straightforward escape-time
loop of the spec's pseudocode — `z = 0; iter = 0; while iter < MaxIter:
if |z|^2 >= 4.0 break; z = z^2 + c; iter += 1` — as a fuel-indexed
recursion, one call per loop trip. -/
def specLoop (real imag : ℚ) (maxIter : ℕ) : ℕ → ℚ → ℚ → ℕ → ℕ
  | 0, _, _, iter => iter
  | fuel + 1, zr, zi, iter =>
    if iter < maxIter then
      if 4 ≤ zr * zr + zi * zi then iter
      else specLoop real imag maxIter fuel (zr * zr - zi * zi + real)
        (2 * zr * zi + imag) (iter + 1)
    else iter

/-- Modelled from the spec (section 4.2): the straightforward loop's result
at the program's iteration cap. -/
def specEscape (real imag : ℚ) : ℕ :=
  specLoop real imag MAX_ITER MAX_ITER 0 0 0

/-- The mathematical orbit `z_0 = 0`, `z_{n+1} = z_n^2 + c` as pairs of
real and imaginary parts. -/
def zorbit (real imag : ℚ) : ℕ → ℚ × ℚ
  | 0 => (0, 0)
  | n + 1 =>
    ((zorbit real imag n).1 * (zorbit real imag n).1 -
       (zorbit real imag n).2 * (zorbit real imag n).2 + real,
     2 * (zorbit real imag n).1 * (zorbit real imag n).2 + imag)

lemma zorbit_zero (real imag : ℚ) : zorbit real imag 0 = (0, 0) := rfl

lemma zorbit_succ (real imag : ℚ) (n : ℕ) :
    zorbit real imag (n + 1) =
      ((zorbit real imag n).1 * (zorbit real imag n).1 -
         (zorbit real imag n).2 * (zorbit real imag n).2 + real,
       2 * (zorbit real imag n).1 * (zorbit real imag n).2 + imag) := rfl

lemma zorbit_succ_1 (real imag : ℚ) (n : ℕ) :
    (zorbit real imag (n + 1)).1 =
      (zorbit real imag n).1 * (zorbit real imag n).1 -
        (zorbit real imag n).2 * (zorbit real imag n).2 + real := rfl

lemma zorbit_succ_2 (real imag : ℚ) (n : ℕ) :
    (zorbit real imag (n + 1)).2 =
      2 * (zorbit real imag n).1 * (zorbit real imag n).2 + imag := rfl

/-- The orbit has escaped at step `n`: its squared magnitude has reached the
bailout threshold `4`. -/
abbrev escapedAt (real imag : ℚ) (n : ℕ) : Prop :=
  4 ≤ (zorbit real imag n).1 * (zorbit real imag n).1 +
      (zorbit real imag n).2 * (zorbit real imag n).2

/-- Characterization of the straightforward loop: started at orbit point
`k` with no escape before `k`, it computes the least escape index below
`MAX_ITER`, or `maxIter` when there is none. -/
lemma specLoop_eq (real imag : ℚ) (maxIter : ℕ) :
    ∀ fuel k, maxIter ≤ k + fuel → k ≤ maxIter →
      (∀ j, j < k → ¬ escapedAt real imag j) →
      specLoop real imag maxIter fuel (zorbit real imag k).1
        (zorbit real imag k).2 k =
        if h : ∃ n, n < maxIter ∧ escapedAt real imag n then Nat.find h
        else maxIter := by
  intro fuel
  induction fuel with
  | zero =>
    intro k hfuel hkle hinv
    have hk : k = maxIter := by omega
    subst hk
    have hnone : ¬ ∃ n, n < k ∧ escapedAt real imag n := by
      rintro ⟨n, hn, hesc⟩
      exact hinv n hn hesc
    rw [dif_neg hnone]
    rfl
  | succ fuel ih =>
    intro k hfuel hkle hinv
    by_cases hk : k < maxIter
    · rw [specLoop, if_pos hk]
      by_cases hesc : escapedAt real imag k
      · rw [if_pos hesc]
        have hex : ∃ n, n < maxIter ∧ escapedAt real imag n := ⟨k, hk, hesc⟩
        rw [dif_pos hex]
        symm
        rw [Nat.find_eq_iff]
        exact ⟨⟨hk, hesc⟩, fun n hn hcon => hinv n hn hcon.2⟩
      · rw [if_neg hesc]
        have e1 : (zorbit real imag k).1 * (zorbit real imag k).1 -
            (zorbit real imag k).2 * (zorbit real imag k).2 + real =
            (zorbit real imag (k + 1)).1 := by rw [zorbit_succ]
        have e2 : 2 * (zorbit real imag k).1 * (zorbit real imag k).2 + imag =
            (zorbit real imag (k + 1)).2 := by rw [zorbit_succ]
        rw [e1, e2]
        refine ih (k + 1) (by omega) (by omega) ?_
        intro j hj
        rcases Nat.lt_succ_iff_lt_or_eq.mp hj with h | h
        · exact hinv j h
        · subst h; exact hesc
    · rw [specLoop, if_neg hk]
      have hkeq : k = maxIter := by omega
      subst hkeq
      have hnone : ¬ ∃ n, n < k ∧ escapedAt real imag n := by
        rintro ⟨n, hn, hesc⟩
        exact hinv n hn hesc
      rw [dif_neg hnone]

/-- Characterization of the unrolled loop: identical to `specLoop_eq`.
Each outer-loop trip performs one or two orbit steps; the inner bailout
test after the first step corresponds to escape at index `k + 1`. -/
lemma mandelLoop_eq (real imag : ℚ) (maxIter : ℕ) :
    ∀ fuel k, maxIter ≤ k + fuel → k ≤ maxIter →
      (∀ j, j < k → ¬ escapedAt real imag j) →
      mandelLoop real imag maxIter fuel (zorbit real imag k).1
        (zorbit real imag k).2 k =
        if h : ∃ n, n < maxIter ∧ escapedAt real imag n then Nat.find h
        else maxIter := by
  intro fuel
  induction fuel with
  | zero =>
    intro k hfuel hkle hinv
    have hk : k = maxIter := by omega
    subst hk
    have hnone : ¬ ∃ n, n < k ∧ escapedAt real imag n := by
      rintro ⟨n, hn, hesc⟩
      exact hinv n hn hesc
    rw [dif_neg hnone]
    rfl
  | succ fuel ih =>
    intro k hfuel hkle hinv
    by_cases hk : k < maxIter
    · rw [mandelLoop, if_pos hk]
      simp only
      by_cases hesc : escapedAt real imag k
      · rw [if_pos hesc]
        have hex : ∃ n, n < maxIter ∧ escapedAt real imag n := ⟨k, hk, hesc⟩
        rw [dif_pos hex]
        symm
        rw [Nat.find_eq_iff]
        exact ⟨⟨hk, hesc⟩, fun n hn hcon => hinv n hn hcon.2⟩
      · rw [if_neg hesc]
        have e2 : (zorbit real imag k).1 * (zorbit real imag k).2 +
            ((zorbit real imag k).1 * (zorbit real imag k).2 + imag) =
            (zorbit real imag (k + 1)).2 := by rw [zorbit_succ_2]; ring
        have e1 : (zorbit real imag k).1 * (zorbit real imag k).1 -
            (zorbit real imag k).2 * (zorbit real imag k).2 + real =
            (zorbit real imag (k + 1)).1 := by rw [zorbit_succ_1]
        rw [e2, e1]
        have hinv1 : ∀ j, j < k + 1 → ¬ escapedAt real imag j := by
          intro j hj
          rcases Nat.lt_succ_iff_lt_or_eq.mp hj with h | h
          · exact hinv j h
          · subst h; exact hesc
        by_cases hesc1 : escapedAt real imag (k + 1)
        · rw [if_pos hesc1]
          exact ih (k + 1) (by omega) (by omega) hinv1
        · rw [if_neg hesc1]
          have hinv2 : ∀ j, j < k + 1 + 1 → ¬ escapedAt real imag j := by
            intro j hj
            rcases Nat.lt_succ_iff_lt_or_eq.mp hj with h | h
            · exact hinv1 j h
            · subst h; exact hesc1
          by_cases hk1 : k + 1 < maxIter
          · rw [if_pos hk1]
            have e4 : (zorbit real imag (k + 1)).1 * (zorbit real imag (k + 1)).2 +
                ((zorbit real imag (k + 1)).1 * (zorbit real imag (k + 1)).2 + imag) =
                (zorbit real imag (k + 1 + 1)).2 := by
              conv_rhs => rw [zorbit_succ_2]
              ring
            have e3 : (zorbit real imag (k + 1)).1 * (zorbit real imag (k + 1)).1 -
                (zorbit real imag (k + 1)).2 * (zorbit real imag (k + 1)).2 + real =
                (zorbit real imag (k + 1 + 1)).1 := by
              conv_rhs => rw [zorbit_succ_1]
            rw [e4, e3]
            exact ih (k + 1 + 1) (by omega) (by omega) hinv2
          · rw [if_neg hk1]
            exact ih (k + 1) (by omega) (by omega) hinv1
    · rw [mandelLoop, if_neg hk]
      have hkeq : k = maxIter := by omega
      subst hkeq
      have hnone : ¬ ∃ n, n < k ∧ escapedAt real imag n := by
        rintro ⟨n, hn, hesc⟩
        exact hinv n hn hesc
      rw [dif_neg hnone]

/-- Shared helper: the kernel computes the least escape index below
`MAX_ITER`, or `MAX_ITER` when the orbit does not escape in the first
`MAX_ITER` iterations. -/
lemma renderPart_char (real imag : ℚ) :
    renderPart real imag =
      if h : ∃ n, n < MAX_ITER ∧ escapedAt real imag n then Nat.find h
      else MAX_ITER := by
  have h := mandelLoop_eq real imag MAX_ITER (MAX_ITER + 1) 0 (by omega) (by omega)
    (fun j hj => absurd hj (Nat.not_lt_zero j))
  simpa [renderPart, zorbit_zero] using h

/-- Shared helper: the spec's straightforward loop computes the same
least-escape-index value. -/
lemma specEscape_char (real imag : ℚ) :
    specEscape real imag =
      if h : ∃ n, n < MAX_ITER ∧ escapedAt real imag n then Nat.find h
      else MAX_ITER := by
  have h := specLoop_eq real imag MAX_ITER MAX_ITER 0 (by omega) (by omega)
    (fun j hj => absurd hj (Nat.not_lt_zero j))
  simpa [specEscape, zorbit_zero] using h

/-- Claim C1: for every complex constant `c = real + i*imag`, the kernel
returns the smallest iteration index at which the orbit `z_{n+1} = z_n^2 + c`
(from `z = 0`) first has squared magnitude at least `4.0`, or `MAX_ITER`
if the squared magnitude stays below `4.0` for the first `MAX_ITER`
iterations. -/
theorem renderPart_least_escape (real imag : ℚ) :
    renderPart real imag =
      if h : ∃ n, n < MAX_ITER ∧ escapedAt real imag n then Nat.find h
      else MAX_ITER :=
  renderPart_char real imag

/-- Claim C2: the unrolled per-pixel loop of the implementation returns the
same iteration count as the straightforward loop of the spec's pseudocode,
for every input point. -/
theorem unrolled_loop_refines_spec (real imag : ℚ) :
    renderPart real imag = specEscape real imag := by
  rw [renderPart_char, specEscape_char]

/-- Helper for claim C4: the loop never returns more than `maxIter`. -/
lemma mandelLoop_le (real imag : ℚ) (maxIter : ℕ) :
    ∀ fuel zr zi iter, iter ≤ maxIter →
      mandelLoop real imag maxIter fuel zr zi iter ≤ maxIter := by
  intro fuel
  induction fuel with
  | zero =>
    intro zr zi iter h
    simpa [mandelLoop] using h
  | succ fuel ih =>
    intro zr zi iter h
    simp only [mandelLoop]
    split_ifs with h1 h2 h3 h4
    · exact h
    · exact ih _ _ _ (by omega)
    · exact ih _ _ _ (by omega)
    · exact ih _ _ _ (by omega)
    · exact h

/-- The pixel assignment `row[x] = colorPalette[iter]` (line 87). -/
def pixelColor (m : Mandelbrot) (x y : ℕ) : ℕ :=
  colorPalette.getD (renderPart (pixelReal m x) (pixelImag m y)) 0

/-- Claim C4: the kernel's iteration count always lies in `[0, MAX_ITER]`,
so indexing the `MAX_ITER + 1`-entry palette with it stays in bounds. -/
theorem kernel_bounded (real imag : ℚ) :
    renderPart real imag ≤ MAX_ITER ∧
    renderPart real imag < colorPalette.length := by
  have h := mandelLoop_le real imag MAX_ITER (MAX_ITER + 1) 0 0 0 (by omega)
  refine ⟨h, ?_⟩
  have hlen : colorPalette.length = MAX_ITER + 1 := by simp [colorPalette]
  rw [hlen]
  exact Nat.lt_succ_of_le h

/-- The orbit of `c = -0.5 + 0i` keeps a zero imaginary part and a real
part trapped in `[-1/2, 0]`, so it never escapes. -/
lemma orbit_neg_half (n : ℕ) :
    (zorbit (-0.5) 0 n).2 = 0 ∧ -(1/2) ≤ (zorbit (-0.5) 0 n).1 ∧
      (zorbit (-0.5) 0 n).1 ≤ 0 := by
  induction n with
  | zero =>
    refine ⟨rfl, ?_, ?_⟩ <;> norm_num [zorbit_zero]
  | succ n ih =>
    obtain ⟨h0, h1, h2⟩ := ih
    refine ⟨?_, ?_, ?_⟩
    · rw [zorbit_succ_2, h0]
      ring
    · rw [zorbit_succ_1, h0]
      nlinarith [sq_nonneg (zorbit (-0.5) 0 n).1]
    · rw [zorbit_succ_1, h0]
      nlinarith [h1, h2]

lemma no_escape_neg_half (n : ℕ) : ¬ escapedAt (-0.5) 0 n := by
  obtain ⟨h0, h1, h2⟩ := orbit_neg_half n
  intro hesc
  have hesc' : (4 : ℚ) ≤ (zorbit (-0.5) 0 n).1 * (zorbit (-0.5) 0 n).1 +
      (zorbit (-0.5) 0 n).2 * (zorbit (-0.5) 0 n).2 := hesc
  rw [h0] at hesc'
  nlinarith [h1, h2, hesc']

lemma renderPart_neg_half : renderPart (-0.5) 0 = MAX_ITER := by
  rw [renderPart_char]
  rw [dif_neg]
  rintro ⟨n, hn, hesc⟩
  exact no_escape_neg_half n hesc

lemma zorbit_one (real imag : ℚ) : zorbit real imag 1 = (real, imag) := by
  have h := zorbit_succ real imag 0
  simpa [zorbit_zero] using h

lemma zorbit_two_pixel00 : zorbit (-1.5) (-1) (1 + 1) = (-(1/4), 2) := by
  rw [zorbit_succ, zorbit_one]
  norm_num [Prod.ext_iff]

/-- The point `(-1.5, -1)` that pixel `(0, 0)` actually maps to escapes at
iteration 2: `z_2 = (-0.25, 2)` has squared magnitude `4.0625`. -/
lemma escaped_pixel00 : escapedAt (-1.5) (-1) (1 + 1) := by
  show (4 : ℚ) ≤ _
  rw [zorbit_two_pixel00]
  norm_num

/-- Claim C6 counterexample: with the default viewport, pixel `(0, 0)` maps
to real part `-1.5`, not approximately `-2.5` as the claim states — the
distance to `-2.5` is exactly `1`, far beyond any reasonable reading of
`≈` (taken here as a tolerance of `1/2`). -/
theorem pixel00_real_counterexample :
    pixelReal mandelbrot0 0 = -1.5 ∧
    ¬ |pixelReal mandelbrot0 0 - (-2.5)| < 1/2 := by
  have h : pixelReal mandelbrot0 0 = -1.5 := by
    norm_num [pixelReal, mandelbrot0, WIDTH]
  refine ⟨h, ?_⟩
  rw [h, show (-1.5 : ℚ) - (-2.5) = 1 by norm_num, abs_one]
  norm_num

/-- Claim C6 (amended): with the default viewport, `Width = Height = 800`
and `MaxIter = 1000`: pixel `(400, 400)` maps to `(-0.5, 0)`, never escapes,
and gets iteration count `1000` and color `Palette[1000]`; pixel `(0, 0)`
maps to `(-1.5, -1.0)` — not `(-2.5, -1.0)` — and escapes with iteration
count below `10`. -/
theorem end_to_end_scenario :
    pixelReal mandelbrot0 400 = -0.5 ∧
    pixelImag mandelbrot0 400 = 0 ∧
    renderPart (pixelReal mandelbrot0 400) (pixelImag mandelbrot0 400) = 1000 ∧
    pixelColor mandelbrot0 400 400 = colorPalette.getD 1000 0 ∧
    pixelReal mandelbrot0 0 = -1.5 ∧
    pixelImag mandelbrot0 0 = -1 ∧
    renderPart (pixelReal mandelbrot0 0) (pixelImag mandelbrot0 0) < 10 := by
  have hr400 : pixelReal mandelbrot0 400 = -0.5 := by
    norm_num [pixelReal, mandelbrot0, WIDTH]
  have hi400 : pixelImag mandelbrot0 400 = 0 := by
    norm_num [pixelImag, mandelbrot0, HEIGHT]
  have hr0 : pixelReal mandelbrot0 0 = -1.5 := by
    norm_num [pixelReal, mandelbrot0, WIDTH]
  have hi0 : pixelImag mandelbrot0 0 = -1 := by
    norm_num [pixelImag, mandelbrot0, HEIGHT]
  have hmain : renderPart (-0.5) 0 = 1000 := renderPart_neg_half
  have hesc : renderPart (-1.5) (-1) < 10 := by
    rw [renderPart_char]
    have hex : ∃ n, n < MAX_ITER ∧ escapedAt (-1.5) (-1) n :=
      ⟨1 + 1, by norm_num [MAX_ITER], escaped_pixel00⟩
    rw [dif_pos hex]
    have hle : Nat.find hex ≤ 1 + 1 :=
      Nat.find_min' hex ⟨by norm_num [MAX_ITER], escaped_pixel00⟩
    omega
  refine ⟨hr400, hi400, ?_, ?_, hr0, hi0, ?_⟩
  · rw [hr400, hi400]; exact hmain
  · unfold pixelColor
    rw [hr400, hi400, hmain]
  · rw [hr0, hi0]; exact hesc
